import Mathlib

/-!
Verification of the gzipped static file server: a shallow embedding of its
content-negotiation core (fileserver.go, the unnamed fileserver variant, and
filesystem.go) together with proofs about the embedded definitions.

Strings are manipulated through their underlying character lists so that every
definition evaluates by kernel reduction on concrete inputs.
-/

namespace Gzipped

/-! ### String helpers (character-list based) -/

/-- Split a character list on a separator character; mirrors Go's
`strings.Split` on a one-character separator. -/
def splitChar (sep : Char) : List Char → List (List Char)
  | [] => [[]]
  | c :: cs =>
    let r := splitChar sep cs
    if c = sep then [] :: r
    else
      match r with
      | [] => [[c]]
      | h :: t => (c :: h) :: t

/-- `strings.HasPrefix`. -/
def strStartsWith (s pre : String) : Bool := pre.data.isPrefixOf s.data

/-- `strings.HasSuffix`. -/
def strEndsWith (s suf : String) : Bool := suf.data.isSuffixOf s.data

/-- `strings.ContainsRune`. -/
def strContainsChar (s : String) (c : Char) : Bool := s.data.contains c

/-- Whitespace trimming as in `strings.TrimSpace` (ASCII space and tabs are
all that appears in Accept-Encoding headers). -/
def isSpaceChar (c : Char) : Bool := c = ' ' ∨ c = '\t'

/-- Trim leading and trailing whitespace from a character list. -/
def trimChars (l : List Char) : List Char :=
  ((l.dropWhile isSpaceChar).reverse.dropWhile isSpaceChar).reverse

/-- Join strings with `/` between them. -/
def joinSlash : List String → String
  | [] => ""
  | h :: t => t.foldl (fun acc s => acc ++ "/" ++ s) h

/-! ### Go `path.Clean` -/

/-- The `/`-separated segments of a string. -/
def segments (s : String) : List String := (splitChar '/' s.data).map String.mk

/-- The element-processing loop of Go's `path.Clean`: `acc` is the stack of
kept elements in reverse order.  Empty and `.` elements are dropped; `..`
pops the stack when possible, is dropped at the root of a rooted path, and
is kept for an unrooted path that climbs out. -/
def cleanLoop (rooted : Bool) : List String → List String → List String
  | acc, [] => acc
  | acc, e :: rest =>
    if e = "" ∨ e = "." then cleanLoop rooted acc rest
    else if e = ".." then
      match acc with
      | [] => if rooted then cleanLoop rooted [] rest else cleanLoop rooted [".."] rest
      | top :: stk =>
        if top = ".." then cleanLoop rooted (".." :: top :: stk) rest
        else cleanLoop rooted stk rest
    else cleanLoop rooted (e :: acc) rest

/-- The cleaned element list of a path (in order). -/
def pathCleanElems (rooted : Bool) (s : String) : List String :=
  (cleanLoop rooted [] (segments s)).reverse

/-- Go's `path.Clean`, as used by `ServeHTTP` on the request path and by
`Dir.Exists` on `"/" + name`. -/
def pathClean (p : String) : String :=
  if p = "" then "."
  else
    let rooted := strStartsWith p "/"
    let body := joinSlash (pathCleanElems rooted p)
    if rooted then "/" ++ body
    else if body = "" then "." else body

/-! ### Accept-Encoding parsing

The Go sources delegate header parsing to external libraries
(`github.com/golang/gddo/httputil/header.ParseAccept` for the sorted design
and the parser inside `github.com/kevinpollet/nego` for the probing design);
neither library's source is part of this repository, so the parser below is
modelled from the spec: "Parse `Accept-Encoding` into Client Preference
Entries ..., respecting RFC 7231 weighting syntax (`name;q=0.xxx`), default
weight `1.0` when `q` is omitted."  RFC 7231 allows at most three decimal
digits after the point, so weights are represented exactly in thousandths
(`1000` = weight 1.0); equality and order of these naturals agree with the
Go float64 comparisons on every representable weight. -/

/-- The value of a decimal digit character. -/
def charDigit? (c : Char) : Option Nat :=
  if '0' ≤ c ∧ c ≤ '9' then some (c.toNat - '0'.toNat) else none

/-- Accumulate the decimal digits of a character list. -/
def digitsAux : List Char → Nat → Option Nat
  | [], acc => some acc
  | c :: cs, acc =>
    match charDigit? c with
    | some d => digitsAux cs (acc * 10 + d)
    | none => none

/-- The natural number a non-empty all-digit character list denotes. -/
def digitsToNat? : List Char → Option Nat
  | [] => none
  | c :: cs => digitsAux (c :: cs) 0

/-- A decimal quality value such as `0`, `1` or `0.5`, in thousandths;
malformed text falls back to the default weight 1000. -/
def parseQValue (s : List Char) : Nat :=
  match splitChar '.' s with
  | [i] =>
    match digitsToNat? i with
    | some n => n * 1000
    | none => 1000
  | [i, f] =>
    match digitsToNat? i, digitsToNat? (f.take 3) with
    | some n, some m => n * 1000 + m * 10 ^ (3 - (f.take 3).length)
    | _, _ => 1000
  | _ => 1000

/-- One comma-separated element of the header: the token before the first
`;`, with its `q=` parameter (default weight 1000).  An empty token yields
no entry. -/
def parseEntry (l : List Char) : Option (String × Nat) :=
  match splitChar ';' l with
  | [] => none
  | tok :: params =>
    let t := String.mk (trimChars tok)
    if t = "" then none
    else
      let qs := params.filterMap (fun p =>
        let p := trimChars p
        if ['q', '='].isPrefixOf p then some (parseQValue (p.drop 2)) else none)
      some (t, qs.headD 1000)

/-- Modelled from the spec: RFC 7231 parsing of an `Accept-Encoding` header
value into Client Preference Entries `(token, weight in thousandths)`. -/
def parseAcceptEncoding (s : String) : List (String × Nat) :=
  (splitChar ',' s.data).filterMap parseEntry

/-- The weight of the first occurrence of a token among the parsed entries
(later duplicates are resolved by first occurrence). -/
def firstQ : List (String × Nat) → String → Option Nat
  | [], _ => none
  | e :: rest, tok => if e.1 = tok then some e.2 else firstQ rest tok

/-! ### The encoding table (fileserver.go) -/

/-- The `encoding` struct of fileserver.go: name, file extension, the
client's preference (weight in thousandths) and the server's preference. -/
structure Encoding where
  name : String
  extension : String
  clientPreference : Nat
  serverPreference : Int
deriving DecidableEq

/-- The `gzip` entry of `supportedEncodings` (clientPreference starts at the
Go zero value). -/
def gzipEncoding : Encoding := ⟨"gzip", ".gz", 0, 1⟩

/-- The `br` entry of `supportedEncodings`. -/
def brEncoding : Encoding := ⟨"br", ".br", 0, 2⟩

/-- The `supportedEncodings` table, in declaration order. -/
def supportedEncodings : List Encoding := [gzipEncoding, brEncoding]

/-- `encodingByPreference.Less` of fileserver.go: descending client
preference, ties broken by descending server preference.  `encLE a b` states
that `a` may come before `b`, the non-strict version of `Less`. -/
def encLE (a b : Encoding) : Prop :=
  b.clientPreference < a.clientPreference ∨
    (b.clientPreference = a.clientPreference ∧ b.serverPreference ≤ a.serverPreference)

instance : DecidableRel encLE := fun a b => by
  unfold encLE; infer_instance

instance : IsTotal Encoding encLE := by
  refine ⟨fun a b => ?_⟩
  rcases Nat.lt_trichotomy a.clientPreference b.clientPreference with h | h | h
  · exact Or.inr (Or.inl h)
  · rcases Int.le_total a.serverPreference b.serverPreference with h2 | h2
    · exact Or.inr (Or.inr ⟨h, h2⟩)
    · exact Or.inl (Or.inr ⟨h.symm, h2⟩)
  · exact Or.inl (Or.inl h)

instance : IsTrans Encoding encLE := by
  refine ⟨fun a b c hab hbc => ?_⟩
  rcases hab with h1 | ⟨e1, s1⟩
  · rcases hbc with h2 | ⟨e2, s2⟩
    · exact Or.inl (h2.trans h1)
    · exact Or.inl (e2 ▸ h1)
  · rcases hbc with h2 | ⟨e2, s2⟩
    · exact Or.inl (e1 ▸ h2)
    · exact Or.inr ⟨e2.trans e1, s2.trans s1⟩

/-- The sort of `sort.Sort(encodingByPreference(...))`.  Go's sort runs
insertion sort on slices this short (the list never exceeds the two
supported encodings, whose server preferences differ, so the Less order is
strict and every correct sort agrees). -/
def sortEncodings (l : List Encoding) : List Encoding := l.insertionSort encLE

/-! ### `acceptable` (fileserver.go, Design A) -/

/-- The loop state of `acceptable`: encodings accepted so far, the quality
of `*` (`none` when not sent, mirroring the `-1` sentinel), and the header
values already seen. -/
structure AccState where
  accept : List Encoding
  starQ : Option Nat
  seen : List String
deriving DecidableEq

/-- Copy `known`, setting the client preference. -/
def withPref (k : Encoding) (q : Nat) : Encoding :=
  { k with clientPreference := q }

/-- One iteration of the header loop of `acceptable`: duplicates are
skipped, `*` records its quality, and a supported encoding with non-zero
quality is appended. -/
def accStep (st : AccState) (e : String × Nat) : AccState :=
  if e.1 ∈ st.seen then st
  else
    let st' : AccState := { st with seen := e.1 :: st.seen }
    if e.1 = "*" then { st' with starQ := some e.2 }
    else
      match supportedEncodings.find? (fun k => k.name = e.1) with
      | some k => if e.2 ≠ 0 then { st' with accept := st'.accept ++ [withPref k e.2] } else st'
      | none => st'

/-- The full header loop of `acceptable`. -/
def accFold (entries : List (String × Nat)) : AccState :=
  entries.foldl accStep ⟨[], none, []⟩

/-- The `*` extension loop of `acceptable`: every supported encoding that
the header did not mention is added at the quality of `*`. -/
def starExtension (st : AccState) : List Encoding :=
  match st.starQ with
  | some q => (supportedEncodings.filter (fun k => k.name ∉ st.seen)).map (fun k => withPref k q)
  | none => []

/-- `acceptable` of fileserver.go: build the accepted encodings from the
client's parsed Accept-Encoding entries and sort them most preferred
first. -/
def acceptable (entries : List (String × Nat)) : List Encoding :=
  let st := accFold entries
  sortEncodings (st.accept ++ starExtension st)

/-! ### `negotiate` (the unnamed fileserver variant, Design B)

The Go code delegates to `nego.NegotiateContentEncoding`, an external
library whose source is not part of this repository. -/

/-- Modelled from the spec: the effective RFC 7231 weight of an encoding
name against the parsed header — its explicit weight when listed, else the
wildcard's weight when `*` is listed, else the default weight for
`identity` (acceptable by default) and nothing for other encodings. -/
def effectiveQ (entries : List (String × Nat)) (name : String) : Option Nat :=
  match firstQ entries name with
  | some q => some q
  | none =>
    match firstQ entries "*" with
    | some q => some q
    | none => if name = "identity" then some 1000 else none

/-- Modelled from the spec: "Run standard weighted content-negotiation
(RFC 7231 `Accept-Encoding` semantics) between the client's header and that
availability list to pick exactly one encoding (or none)."  The first
offered encoding of maximal positive effective weight wins; `""` is
returned when none is acceptable. -/
def negotiateEntries (entries : List (String × Nat)) (available : List String) : String :=
  let pick := available.foldl (fun best offer =>
    let q := (effectiveQ entries offer).getD 0
    match best with
    | none => if 0 < q then some (offer, q) else none
    | some (_, bq) => if bq < q then some (offer, q) else best) none
  match pick with
  | some (b, _) => b
  | none => ""

/-- `negotiate` of the unnamed fileserver variant, on the raw header. -/
def negotiate (ae : String) (available : List String) : String :=
  negotiateEntries (parseAcceptEncoding ae) available

/-- `preferredEncodings` of the unnamed fileserver variant. -/
def preferredEncodings : List String := ["br", "gzip", "identity"]

/-- `extensionForEncoding` of the unnamed fileserver variant. -/
def extensionForEncoding (encname : String) : String :=
  if encname = "gzip" then ".gz"
  else if encname = "br" then ".br"
  else ""

/-! ### The filesystem abstraction and the request/response model

The `http.FileSystem` handed to `FileServer` is modelled as a finite map
from (already rooted and cleaned) names to entries: a regular file with its
content and modification time, or a directory.  `Open` succeeds on both
files and directories (as `http.Dir.Open` does); `Stat` data is the entry
itself. -/

/-- An entry of the backing filesystem. -/
inductive Entry where
  | file (body : String) (modTime : Nat)
  | dir
deriving DecidableEq

/-- The filesystem: an association list from names to entries. -/
def FileSys := List (String × Entry)

/-- Stat by name. -/
def statFS (fs : FileSys) (name : String) : Option Entry :=
  (fs.find? (fun e => e.1 = name)).map (·.2)

/-- `Exists` of the `FileSystem` interface as the handler sees it: the name
stats successfully (no handle is opened). -/
def existsFS (fs : FileSys) (name : String) : Bool :=
  (statFS fs name).isSome

/-- An HTTP request as far as the core reads it: URL path, the raw
`Accept-Encoding` value (`""` when the header is absent, as
`r.Header.Get` reports it) and whether a `Range` header is present. -/
structure Request where
  path : String
  acceptEncoding : String
  hasRange : Bool
deriving DecidableEq

/-- The side effects of handling one request: every name passed to
`Exists`/`Open`, every line printed to standard output, the handles opened
and the handles closed (numbered in order of opening). -/
structure Trace where
  fsOps : List String
  stdout : List String
  opened : List Nat
  closed : List Nat
  nextHandle : Nat
deriving DecidableEq

/-- The trace at the start of a request. -/
def Trace.empty : Trace := ⟨[], [], [], [], 0⟩

/-- Record a storage-abstraction call. -/
def Trace.op (t : Trace) (name : String) : Trace := { t with fsOps := t.fsOps ++ [name] }

/-- Record a line printed to standard output. -/
def Trace.print (t : Trace) (line : String) : Trace := { t with stdout := t.stdout ++ [line] }

/-- Record the release of a handle. -/
def Trace.close (t : Trace) (h : Nat) : Trace := { t with closed := t.closed ++ [h] }

/-- The result of `openAndStat`: no file (`Open` failed), an open handle on
a directory (the error return that still carries the handle), or an open
handle on a regular file with its stat data. -/
inductive OpenOutcome where
  | notFound
  | isDir (h : Nat)
  | ok (h : Nat) (body : String) (modTime : Nat)
deriving DecidableEq

/-- Record the allocation of the next handle. -/
def Trace.alloc (t : Trace) : Trace :=
  { t with opened := t.opened ++ [t.nextHandle], nextHandle := t.nextHandle + 1 }

/-- `openAndStat` of both fileserver variants: open, stat, and reject
directories; an open that succeeds allocates a handle even when the entry
turns out to be a directory (the Go code returns the file alongside the
error). -/
def openAndStat (fs : FileSys) (name : String) (t : Trace) : OpenOutcome × Trace :=
  match statFS fs name with
  | none => (.notFound, t.op name)
  | some .dir => (.isDir t.nextHandle, (t.op name).alloc)
  | some (.file body mt) => (.ok t.nextHandle body mt, (t.op name).alloc)

/-- Response data at the HTTP boundary: the status and the headers the core
sets, plus the body of the file handed to the content responder (the
responder itself — ranges, conditional requests, MIME sniffing — is the
external collaborator and is abstracted as serving that body with 200). -/
structure Response where
  status : Nat
  contentEncoding : Option String
  vary : Option String
  contentLength : Option Nat
  body : Option String
deriving DecidableEq

/-- `http.NotFound`. -/
def notFoundResponse : Response := ⟨404, none, none, none, none⟩

/-- What `findBestFile` leaves behind for `ServeHTTP`: the final
`openAndStat` outcome and the headers it wrote to the response. -/
structure BestResult where
  outcome : OpenOutcome
  contentEncoding : Option String
  vary : Option String
  contentLength : Option Nat
deriving DecidableEq

/-- The base-file fallback `return f.openAndStat(fpath)` shared by every
failure branch: no header is written. -/
def baseFallback (fs : FileSys) (fpath : String) (t : Trace) : BestResult × Trace :=
  (⟨(openAndStat fs fpath t).1, none, none, none⟩, (openAndStat fs fpath t).2)

/-! ### `findBestFile` and `ServeHTTP`, Design B (the unnamed variant) -/

/-- The availability probe of the unnamed `findBestFile`: for each preferred
encoding, check existence of the sibling file and print a diagnostic line;
collect the encodings whose sibling exists. -/
def probe (fs : FileSys) (fpath : String) : List String → Trace → List String × Trace
  | [], t => ([], t)
  | posenc :: rest, t =>
    let fname := fpath ++ extensionForEncoding posenc
    if existsFS fs fname then
      let t' := (t.op fname).print (fname ++ " (" ++ posenc ++ ") available\n")
      ((posenc :: (probe fs fpath rest t').1), (probe fs fpath rest t').2)
    else
      probe fs fpath rest ((t.op fname).print (fname ++ " (" ++ posenc ++ ") not found\n"))

/-- The success branch of the unnamed `findBestFile`: open the negotiated
sibling; on success set `Content-Encoding`, add `Vary: Accept-Encoding`,
and for non-range requests set `Content-Length` to the file's size; on
failure fall back to the base file. -/
def serveNegotiated (fs : FileSys) (req : Request) (fpath negenc : String) (t : Trace) :
    BestResult × Trace :=
  match (openAndStat fs (fpath ++ extensionForEncoding negenc) t).1 with
  | .ok h body mt =>
    (⟨.ok h body mt, some negenc, some "Accept-Encoding",
      if req.hasRange then none else some body.length⟩,
     (openAndStat fs (fpath ++ extensionForEncoding negenc) t).2)
  | _ => baseFallback fs fpath (openAndStat fs (fpath ++ extensionForEncoding negenc) t).2

/-- `findBestFile` of the unnamed fileserver variant: serve the base file
directly when no `Accept-Encoding` was sent; otherwise probe the preferred
encodings on disk, negotiate against the availability list, and open the
chosen sibling, falling back to the base file whenever any step fails. -/
def findBestFileB (fs : FileSys) (req : Request) (fpath : String) (t : Trace) :
    BestResult × Trace :=
  if req.acceptEncoding = "" then baseFallback fs fpath t
  else
    let available := (probe fs fpath preferredEncodings t).1
    let t' := (probe fs fpath preferredEncodings t).2
    if available = [] then baseFallback fs fpath t'
    else
      let negenc := negotiate req.acceptEncoding available
      if negenc = "" then baseFallback fs fpath t'
      else serveNegotiated fs req fpath negenc t'

/-- The path normalisation shared by both `ServeHTTP` variants: ensure a
leading `/`, then `path.Clean`. -/
def cleanedPath (req : Request) : String :=
  pathClean (if strStartsWith req.path "/" then req.path else "/" ++ req.path)

/-- Assemble the response from a `findBestFile` result: reject with 404
when nothing could be opened, otherwise hand the file to the content
responder and close its handle. -/
def respond (res : BestResult) (t : Trace) : Response × Trace :=
  match res.outcome with
  | .ok h body _ =>
    (⟨200, res.contentEncoding, res.vary, res.contentLength, some body⟩, t.close h)
  | _ => (notFoundResponse, t)

/-- `ServeHTTP` of the unnamed fileserver variant. -/
def serveHTTP_B (fs : FileSys) (req : Request) : Response × Trace :=
  let fpath := cleanedPath req
  if strEndsWith fpath "/" then (notFoundResponse, Trace.empty)
  else
    respond (findBestFileB fs req fpath Trace.empty).1 (findBestFileB fs req fpath Trace.empty).2

/-! ### `findBestFile` and `ServeHTTP`, Design A (fileserver.go) -/

/-- The candidate loop of fileserver.go's `findBestFile`: try each accepted
encoding's sibling in order, keep the first that opens as a regular file and
set only `Content-Encoding`; when the list is exhausted fall back to the
base file with no header. -/
def tryEncodings (fs : FileSys) (fpath : String) : List Encoding → Trace → BestResult × Trace
  | [], t => baseFallback fs fpath t
  | enc :: rest, t =>
    match (openAndStat fs (fpath ++ enc.extension) t).1 with
    | .ok h body mt =>
      (⟨.ok h body mt, some enc.name, none, none⟩, (openAndStat fs (fpath ++ enc.extension) t).2)
    | _ => tryEncodings fs fpath rest (openAndStat fs (fpath ++ enc.extension) t).2

/-- `findBestFile` of fileserver.go (the header is parsed by the external
`header.ParseAccept`, modelled by `parseAcceptEncoding`). -/
def findBestFileA (fs : FileSys) (req : Request) (fpath : String) (t : Trace) :
    BestResult × Trace :=
  tryEncodings fs fpath (acceptable (parseAcceptEncoding req.acceptEncoding)) t

/-- `ServeHTTP` of fileserver.go. -/
def serveHTTP_A (fs : FileSys) (req : Request) : Response × Trace :=
  let fpath := cleanedPath req
  if strEndsWith fpath "/" then (notFoundResponse, Trace.empty)
  else
    respond (findBestFileA fs req fpath Trace.empty).1 (findBestFileA fs req fpath Trace.empty).2

/-! ### `Dir.Exists` (filesystem.go) -/

/-- The host filesystem behind a `Dir`, keyed by full (joined) names. -/
def HostFS := List (String × Entry)

/-- Stat on the host filesystem, as `os.Stat` reports it: success for any
existing entry, file or directory. -/
def hostStat (host : HostFS) (name : String) : Option Entry :=
  (host.find? (fun e => e.1 = name)).map (·.2)

/-- `filepath.FromSlash`: replace `/` by the host separator. -/
def fromSlash (sep : Char) (s : String) : String :=
  String.mk (s.data.map (fun c => if c = '/' then sep else c))

/-- `Dir.Exists` of filesystem.go: reject names containing the host path
separator on hosts where it is not `/`, resolve the name relative to the
base directory via `filepath.Join(dir, filepath.FromSlash(path.Clean("/" +
name)))` (`filepath.Join` is modelled as plain concatenation, which is its
value when the base directory is itself clean without a trailing
separator), and report whether `os.Stat` succeeds. -/
def dirExists (sep : Char) (host : HostFS) (d : String) (name : String) : Bool :=
  if sep ≠ '/' ∧ strContainsChar name sep then false
  else
    let dir := if d = "" then "." else d
    let fullName := dir ++ fromSlash sep (pathClean ("/" ++ name))
    (hostStat host fullName).isSome

/-- `strings.TrimPrefix(s, "/")`: strip one leading `/`. -/
def trimLeadingSlash (s : String) : String :=
  if strStartsWith s "/" then String.mk (s.data.drop 1) else s

/-- `io/fs.ValidPath`: the name is `.` or consists of `/`-separated
elements none of which is empty, `.` or `..`.  `fs2.Stat` (Go standard
library) fails on any name that is not valid, and otherwise stats the
entry — file or directory — relative to the `fs.FS` root. -/
def validPath (name : String) : Bool :=
  name = "." || (segments name).all (fun e => decide (e ≠ "" ∧ e ≠ "." ∧ e ≠ ".."))

/-- `fs.Exists` of filesystem.go: reject names containing the host path
separator on hosts where it is not `/`, then stat
`strings.TrimPrefix(filepath.FromSlash(path.Clean(name)), "/")` against
the wrapped `fs.FS` (whose `Stat` rejects names that are not
`io/fs`-valid and reports success for any existing entry). -/
def fsExists (sep : Char) (host : HostFS) (name : String) : Bool :=
  if sep ≠ '/' ∧ strContainsChar name sep then false
  else
    let resolved := trimLeadingSlash (fromSlash sep (pathClean name))
    if validPath resolved then (hostStat host resolved).isSome else false

/-! ### Derived views of the negotiation pipeline -/

/-- The diagnostic line the probe prints for one preferred encoding. -/
def probeLine (fs : FileSys) (fpath : String) (posenc : String) : String :=
  let fname := fpath ++ extensionForEncoding posenc
  if existsFS fs fname then fname ++ " (" ++ posenc ++ ") available\n"
  else fname ++ " (" ++ posenc ++ ") not found\n"

/-- The availability list the probe produces, as a pure function. -/
def availableEncodings (fs : FileSys) (fpath : String) : List String :=
  preferredEncodings.filter (fun e => existsFS fs (fpath ++ extensionForEncoding e))

/-- The encoding the unnamed `findBestFile` ends up negotiating (`""` when
negotiation is skipped or fails). -/
def negotiatedEncoding (fs : FileSys) (req : Request) (fpath : String) : String :=
  if req.acceptEncoding = "" then ""
  else if availableEncodings fs fpath = [] then ""
  else negotiate req.acceptEncoding (availableEncodings fs fpath)

/-! ### Trace and openAndStat lemmas -/

@[simp] lemma Trace.op_stdout (t : Trace) (n : String) : (t.op n).stdout = t.stdout := rfl

@[simp] lemma Trace.op_nextHandle (t : Trace) (n : String) : (t.op n).nextHandle = t.nextHandle := rfl

@[simp] lemma Trace.alloc_stdout (t : Trace) : t.alloc.stdout = t.stdout := rfl

@[simp] lemma Trace.print_stdout (t : Trace) (l : String) :
    (t.print l).stdout = t.stdout ++ [l] := rfl

lemma openAndStat_fst (fs : FileSys) (n : String) (t : Trace) :
    (openAndStat fs n t).1 =
      match statFS fs n with
      | none => .notFound
      | some .dir => .isDir t.nextHandle
      | some (.file b mt) => .ok t.nextHandle b mt := by
  cases h : statFS fs n with
  | none => simp [openAndStat, h]
  | some e => cases e <;> simp [openAndStat, h]

lemma openAndStat_stdout (fs : FileSys) (n : String) (t : Trace) :
    (openAndStat fs n t).2.stdout = t.stdout := by
  cases h : statFS fs n with
  | none => simp [openAndStat, h]
  | some e => cases e <;> simp [openAndStat, h, Trace.alloc]

lemma baseFallback_fst (fs : FileSys) (p : String) (t : Trace) :
    (baseFallback fs p t).1 = ⟨(openAndStat fs p t).1, none, none, none⟩ := rfl

lemma baseFallback_stdout (fs : FileSys) (p : String) (t : Trace) :
    (baseFallback fs p t).2.stdout = t.stdout := openAndStat_stdout fs p t

/-! ### Probe lemmas -/

lemma probe_fst (fs : FileSys) (fpath : String) :
    ∀ (l : List String) (t : Trace),
      (probe fs fpath l t).1 = l.filter (fun e => existsFS fs (fpath ++ extensionForEncoding e))
  | [], _ => rfl
  | posenc :: rest, t => by
    by_cases h : existsFS fs (fpath ++ extensionForEncoding posenc)
    · simp [probe, h, probe_fst fs fpath rest]
    · simp [probe, h, probe_fst fs fpath rest]

lemma probe_stdout (fs : FileSys) (fpath : String) :
    ∀ (l : List String) (t : Trace),
      (probe fs fpath l t).2.stdout = t.stdout ++ l.map (probeLine fs fpath)
  | [], _ => by simp [probe]
  | posenc :: rest, t => by
    by_cases h : existsFS fs (fpath ++ extensionForEncoding posenc)
    · simp [probe, h, probe_stdout fs fpath rest, probeLine]
    · simp [probe, h, probe_stdout fs fpath rest, probeLine]

/-! ### Negotiation lemmas -/

/-- The picking step of `negotiateEntries`. -/
def negStep (entries : List (String × Nat)) (best : Option (String × Nat)) (offer : String) :
    Option (String × Nat) :=
  let q := (effectiveQ entries offer).getD 0
  match best with
  | none => if 0 < q then some (offer, q) else none
  | some (_, bq) => if bq < q then some (offer, q) else best

lemma negotiateEntries_eq_fold (entries : List (String × Nat)) (available : List String) :
    negotiateEntries entries available =
      match available.foldl (negStep entries) none with
      | some (b, _) => b
      | none => "" := rfl

lemma negStep_fold_spec (entries : List (String × Nat)) :
    ∀ (l : List String) (acc : Option (String × Nat)),
      l.foldl (negStep entries) acc = acc ∨
        ∃ b q, l.foldl (negStep entries) acc = some (b, q) ∧ b ∈ l ∧
          (effectiveQ entries b).getD 0 = q ∧ 0 < q := by
  intro l
  induction l with
  | nil => intro acc; exact Or.inl rfl
  | cons x rest ih =>
    intro acc
    have hstep : negStep entries acc x = acc ∨
        negStep entries acc x = some (x, (effectiveQ entries x).getD 0) ∧
          0 < (effectiveQ entries x).getD 0 := by
      unfold negStep
      cases acc with
      | none =>
        by_cases h : 0 < (effectiveQ entries x).getD 0
        · exact Or.inr ⟨by simp [h], h⟩
        · exact Or.inl (by simp [h])
      | some p =>
        by_cases h : p.2 < (effectiveQ entries x).getD 0
        · exact Or.inr ⟨by cases p; simp [h], Nat.lt_of_le_of_lt (Nat.zero_le _) h⟩
        · exact Or.inl (by cases p; simp [h])
    have hfold : rest.foldl (negStep entries) (negStep entries acc x) = negStep entries acc x ∨
        ∃ b q, rest.foldl (negStep entries) (negStep entries acc x) = some (b, q) ∧ b ∈ rest ∧
          (effectiveQ entries b).getD 0 = q ∧ 0 < q := ih (negStep entries acc x)
    rcases hfold with hf | ⟨b, q, hf, hb, he, hq⟩
    · rcases hstep with hs | ⟨hs, hq⟩
      · exact Or.inl (by rw [List.foldl_cons, hf, hs])
      · exact Or.inr ⟨x, (effectiveQ entries x).getD 0,
          by rw [List.foldl_cons, hf, hs], List.mem_cons_self x rest, rfl, hq⟩
    · exact Or.inr ⟨b, q, by rw [List.foldl_cons, hf], List.mem_cons_of_mem x hb, he, hq⟩

/-- Whatever `negotiateEntries` picks comes from the availability list and
has positive effective weight; otherwise it picks nothing. -/
lemma negotiateEntries_cases (entries : List (String × Nat)) (available : List String) :
    negotiateEntries entries available = "" ∨
      (negotiateEntries entries available ∈ available ∧
        0 < (effectiveQ entries (negotiateEntries entries available)).getD 0) := by
  rw [negotiateEntries_eq_fold]
  rcases negStep_fold_spec entries available none with h | ⟨b, q, h, hb, he, hq⟩
  · rw [h]; exact Or.inl rfl
  · rw [h]; exact Or.inr ⟨hb, he ▸ hq⟩

/-! ### String and path lemmas -/

lemma str_append_empty (s : String) : s ++ "" = s :=
  String.ext (by rw [String.data_append]; exact List.append_nil s.data)

lemma fromSlash_slash (s : String) : fromSlash '/' s = s := by
  have hmap : ∀ l : List Char, l.map (fun c => if c = '/' then '/' else c) = l := by
    intro l
    induction l with
    | nil => rfl
    | cons c cs ih =>
      by_cases h : c = '/' <;> simp [h, ih]
  exact String.ext (hmap s.data)

lemma cleanLoop_no_dotdot :
    ∀ (es acc : List String), ".." ∉ acc → ".." ∉ cleanLoop true acc es := by
  intro es
  induction es with
  | nil => intro acc h; exact h
  | cons e rest ih =>
    intro acc h
    simp only [cleanLoop]
    by_cases h1 : e = "" ∨ e = "."
    · rw [if_pos h1]; exact ih acc h
    · by_cases h2 : e = ".."
      · rw [if_neg h1, if_pos h2]
        cases acc with
        | nil => simpa using ih [] (by simp)
        | cons top stk =>
          have htop : top ≠ ".." := fun he => h (he ▸ List.mem_cons_self top stk)
          show ".." ∉ if top = ".." then cleanLoop true (".." :: top :: stk) rest
            else cleanLoop true stk rest
          rw [if_neg htop]
          exact ih stk (fun he => h (List.mem_cons_of_mem top he))
      · rw [if_neg h1, if_neg h2]
        refine ih (e :: acc) ?_
        intro hmem
        rcases List.mem_cons.mp hmem with he | he
        · exact h2 he.symm
        · exact h he

/-! ### The base-fallback response -/

/-- The status the base-file fallback yields. -/
def baseStatus (fs : FileSys) (p : String) : Nat :=
  match statFS fs p with
  | some (.file _ _) => 200
  | _ => 404

/-- The body the base-file fallback yields. -/
def baseBody (fs : FileSys) (p : String) : Option String :=
  match statFS fs p with
  | some (.file b _) => some b
  | _ => none

/-- The full response of serving the base file with no negotiation
headers. -/
def baseResponse (fs : FileSys) (p : String) : Response :=
  ⟨baseStatus fs p, none, none, none, baseBody fs p⟩

lemma respond_baseFallback (fs : FileSys) (p : String) (t : Trace) :
    (respond (baseFallback fs p t).1 (baseFallback fs p t).2).1 = baseResponse fs p := by
  rcases h : statFS fs p with _ | e
  · simp [respond, baseFallback_fst, openAndStat_fst, h, baseResponse, baseStatus, baseBody,
      notFoundResponse]
  · cases e <;>
      simp [respond, baseFallback_fst, openAndStat_fst, h, baseResponse, baseStatus, baseBody,
        notFoundResponse]

lemma respond_serveNegotiated_notfile (fs : FileSys) (req : Request) (p ne : String) (t : Trace)
    (h : ∀ b mt, statFS fs (p ++ extensionForEncoding ne) ≠ some (Entry.file b mt)) :
    (respond (serveNegotiated fs req p ne t).1 (serveNegotiated fs req p ne t).2).1 =
      baseResponse fs p := by
  unfold serveNegotiated
  rcases hst : statFS fs (p ++ extensionForEncoding ne) with _ | e
  · rw [openAndStat_fst, hst]
    exact respond_baseFallback fs p _
  · cases e with
    | dir =>
      rw [openAndStat_fst, hst]
      exact respond_baseFallback fs p _
    | file b mt => exact absurd hst (h b mt)

lemma respond_serveNegotiated_identity (fs : FileSys) (req : Request) (p : String) (t : Trace) :
    (respond (serveNegotiated fs req p "identity" t).1
        (serveNegotiated fs req p "identity" t).2).1.status = baseStatus fs p ∧
    (respond (serveNegotiated fs req p "identity" t).1
        (serveNegotiated fs req p "identity" t).2).1.body = baseBody fs p := by
  have hext : p ++ extensionForEncoding "identity" = p := str_append_empty p
  rcases hst : statFS fs p with _ | e
  · rw [respond_serveNegotiated_notfile fs req p "identity" t
      (fun b mt hb => by rw [hext, hst] at hb; simp at hb)]
    exact ⟨rfl, rfl⟩
  · cases e with
    | dir =>
      rw [respond_serveNegotiated_notfile fs req p "identity" t
        (fun b mt hb => by rw [hext, hst] at hb; simp at hb)]
      exact ⟨rfl, rfl⟩
    | file b mt =>
      unfold serveNegotiated
      rw [hext, openAndStat_fst, hst]
      simp [respond, baseStatus, baseBody, hst]

lemma serveNegotiated_stdout (fs : FileSys) (req : Request) (p ne : String) (t : Trace) :
    (serveNegotiated fs req p ne t).2.stdout = t.stdout := by
  unfold serveNegotiated
  cases h : (openAndStat fs (p ++ extensionForEncoding ne) t).1 <;>
    simp [h, baseFallback_stdout, openAndStat_stdout]

/-! ### The candidate-list characterization of `acceptable` -/

lemma firstQ_concat (p : List (String × Nat)) (a : String × Nat) (x : String) :
    firstQ (p ++ [a]) x =
      match firstQ p x with
      | some q => some q
      | none => if a.1 = x then some a.2 else none := by
  induction p with
  | nil => rfl
  | cons y p ih =>
    by_cases h : y.1 = x
    · simp [firstQ, h]
    · simp only [List.cons_append, firstQ, if_neg h]
      exact ih

lemma firstQ_concat_ne (p : List (String × Nat)) (a : String × Nat) (x : String)
    (h : firstQ p x = none → a.1 ≠ x) :
    firstQ (p ++ [a]) x = firstQ p x := by
  rw [firstQ_concat]
  cases hq : firstQ p x with
  | some q => rfl
  | none => rw [if_neg (h hq)]

lemma supported_not_star : ∀ k ∈ supportedEncodings, k.name ≠ "*" := by
  intro k hk
  rcases (by simpa [supportedEncodings] using hk : k = gzipEncoding ∨ k = brEncoding) with
    rfl | rfl <;> decide

lemma supported_name_inj : ∀ k₁ ∈ supportedEncodings, ∀ k₂ ∈ supportedEncodings,
    k₁.name = k₂.name → k₁ = k₂ := by
  intro k₁ h₁ k₂ h₂
  rcases (by simpa [supportedEncodings] using h₁ : k₁ = gzipEncoding ∨ k₁ = brEncoding) with
    rfl | rfl <;>
    rcases (by simpa [supportedEncodings] using h₂ : k₂ = gzipEncoding ∨ k₂ = brEncoding) with
      rfl | rfl <;> decide

/-- The loop invariant of `acceptable`'s header fold: the seen set mirrors
the processed entries, the star quality mirrors the first `*` entry, and
the accepted list holds exactly the supported encodings first listed with a
non-zero weight. -/
def AccInv (p : List (String × Nat)) (st : AccState) : Prop :=
  (∀ x, x ∈ st.seen ↔ (firstQ p x).isSome) ∧
  st.starQ = firstQ p "*" ∧
  (∀ e, e ∈ st.accept ↔ ∃ k ∈ supportedEncodings, ∃ q,
    firstQ p k.name = some q ∧ q ≠ 0 ∧ e = withPref k q)

lemma accFold_inv : ∀ p : List (String × Nat), AccInv p (accFold p) := by
  intro p
  induction p using List.reverseRecOn with
  | nil =>
    refine ⟨fun x => ?_, rfl, fun e => ?_⟩
    · simp [accFold, firstQ]
    · simp [accFold, firstQ]
  | append_singleton p a ih =>
    have hstep : accFold (p ++ [a]) = accStep (accFold p) a := by
      rw [accFold, accFold, List.foldl_append, List.foldl_cons, List.foldl_nil]
    rw [hstep]
    obtain ⟨ihseen, ihstar, ihacc⟩ := ih
    by_cases hseen : a.1 ∈ (accFold p).seen
    · have hsome : (firstQ p a.1).isSome := (ihseen a.1).mp hseen
      have hfq : ∀ x, firstQ (p ++ [a]) x = firstQ p x := by
        intro x
        refine firstQ_concat_ne p a x (fun hx he => ?_)
        rw [he, hx] at hsome
        simp at hsome
      rw [accStep, if_pos hseen]
      refine ⟨fun x => ?_, ?_, fun e => ?_⟩
      · rw [hfq]; exact ihseen x
      · rw [hfq]; exact ihstar
      · simp only [hfq]; exact ihacc e
    · have hnone : firstQ p a.1 = none := by
        cases hx : firstQ p a.1 with
        | none => rfl
        | some q =>
          exact absurd ((ihseen a.1).mpr (by rw [hx]; rfl)) hseen
      have hseen' : ∀ x, x ∈ a.1 :: (accFold p).seen ↔ (firstQ (p ++ [a]) x).isSome := by
        intro x
        constructor
        · intro hx
          rcases List.mem_cons.mp hx with rfl | hx
          · rw [firstQ_concat, hnone]
            simp
          · have hs := (ihseen x).mp hx
            rcases Option.isSome_iff_exists.mp hs with ⟨q, hq⟩
            rw [firstQ_concat, hq]
            rfl
        · intro hx
          rw [firstQ_concat] at hx
          cases hq : firstQ p x with
          | some q =>
            exact List.mem_cons_of_mem _ ((ihseen x).mpr (by rw [hq]; rfl))
          | none =>
            rw [hq] at hx
            by_cases hax : a.1 = x
            · exact hax ▸ List.mem_cons_self _ _
            · rw [if_neg hax] at hx
              simp at hx
      by_cases hstar : a.1 = "*"
      · have hsn : firstQ p "*" = none := by rw [← hstar]; exact hnone
        have hfqk : ∀ k ∈ supportedEncodings, firstQ (p ++ [a]) k.name = firstQ p k.name := by
          intro k hk
          exact firstQ_concat_ne p a k.name
            (fun _ he => supported_not_star k hk (by rw [← he, hstar]))
        simp only [accStep, if_neg hseen, if_pos hstar]
        refine ⟨hseen', ?_, fun e => ?_⟩
        · rw [firstQ_concat, hsn, if_pos hstar]
        · constructor
          · intro he
            rcases (ihacc e).mp he with ⟨k, hk, q, hq, hq0, heq⟩
            exact ⟨k, hk, q, by rw [hfqk k hk]; exact hq, hq0, heq⟩
          · rintro ⟨k, hk, q, hq, hq0, heq⟩
            rw [hfqk k hk] at hq
            exact (ihacc e).mpr ⟨k, hk, q, hq, hq0, heq⟩
      · have hstarq : firstQ (p ++ [a]) "*" = firstQ p "*" :=
          firstQ_concat_ne p a "*" (fun _ => hstar)
        cases hfind : supportedEncodings.find? (fun k => k.name = a.1) with
        | none =>
          have hnosupp : ∀ k ∈ supportedEncodings, k.name ≠ a.1 := by
            intro k hk he
            have hp := List.find?_eq_none.mp hfind k hk
            simp [he] at hp
          have hfqk : ∀ k ∈ supportedEncodings, firstQ (p ++ [a]) k.name = firstQ p k.name := by
            intro k hk
            exact firstQ_concat_ne p a k.name (fun _ he => (hnosupp k hk) he.symm)
          simp only [accStep, if_neg hseen, if_neg hstar, hfind]
          refine ⟨hseen', by rw [hstarq]; exact ihstar, fun e => ?_⟩
          constructor
          · intro he
            rcases (ihacc e).mp he with ⟨k, hk, q, hq, hq0, heq⟩
            exact ⟨k, hk, q, by rw [hfqk k hk]; exact hq, hq0, heq⟩
          · rintro ⟨k, hk, q, hq, hq0, heq⟩
            rw [hfqk k hk] at hq
            exact (ihacc e).mpr ⟨k, hk, q, hq, hq0, heq⟩
        | some k₀ =>
          have hk₀ : k₀ ∈ supportedEncodings := List.mem_of_find?_eq_some hfind
          have hk₀n : k₀.name = a.1 := by
            have hp := List.find?_some hfind
            simpa using hp
          have hk₀none : firstQ p k₀.name = none := by rw [hk₀n]; exact hnone
          by_cases hq0 : a.2 ≠ 0
          · simp only [accStep, if_neg hseen, if_neg hstar, hfind, if_pos hq0]
            refine ⟨hseen', by rw [hstarq]; exact ihstar, fun e => ?_⟩
            constructor
            · intro he
              rcases List.mem_append.mp he with he | he
              · rcases (ihacc e).mp he with ⟨k, hk, q, hq, hq0', heq⟩
                exact ⟨k, hk, q, by rw [firstQ_concat, hq], hq0', heq⟩
              · have heq : e = withPref k₀ a.2 := by simpa using he
                refine ⟨k₀, hk₀, a.2, ?_, hq0, heq⟩
                rw [firstQ_concat, hk₀none, if_pos hk₀n.symm]
            · rintro ⟨k, hk, q, hq, hq0', heq⟩
              rw [firstQ_concat] at hq
              cases hpq : firstQ p k.name with
              | some q' =>
                rw [hpq] at hq
                injection hq with h2
                subst h2
                exact List.mem_append.mpr (Or.inl ((ihacc e).mpr ⟨k, hk, q', hpq, hq0', heq⟩))
              | none =>
                rw [hpq] at hq
                by_cases hax : a.1 = k.name
                · rw [if_pos hax] at hq
                  injection hq with h2
                  have hkk : k = k₀ := supported_name_inj k hk k₀ hk₀ (by rw [← hax, hk₀n])
                  subst hkk
                  subst h2
                  exact List.mem_append.mpr (Or.inr (by simp [heq]))
                · rw [if_neg hax] at hq
                  simp at hq
          · have ha20 : a.2 = 0 := of_not_not hq0
            simp only [accStep, if_neg hseen, if_neg hstar, hfind, if_neg hq0]
            refine ⟨hseen', by rw [hstarq]; exact ihstar, fun e => ?_⟩
            constructor
            · intro he
              rcases (ihacc e).mp he with ⟨k, hk, q, hq, hq0', heq⟩
              exact ⟨k, hk, q, by rw [firstQ_concat, hq], hq0', heq⟩
            · rintro ⟨k, hk, q, hq, hq0', heq⟩
              rw [firstQ_concat] at hq
              cases hpq : firstQ p k.name with
              | some q' =>
                rw [hpq] at hq
                injection hq with h2
                subst h2
                exact (ihacc e).mpr ⟨k, hk, q', hpq, hq0', heq⟩
              | none =>
                rw [hpq] at hq
                by_cases hax : a.1 = k.name
                · rw [if_pos hax] at hq
                  injection hq with h2
                  exact absurd (h2 ▸ ha20) hq0'
                · rw [if_neg hax] at hq
                  simp at hq

/-- The candidate list built by `acceptable` holds exactly the supported
encodings either explicitly listed (first occurrence) with non-zero weight
or unlisted but covered by a wildcard entry, each carrying its effective
weight. -/
lemma acceptable_mem_iff (entries : List (String × Nat)) (e : Encoding) :
    e ∈ acceptable entries ↔ ∃ k ∈ supportedEncodings,
      ((∃ q, firstQ entries k.name = some q ∧ q ≠ 0 ∧ e = withPref k q) ∨
       (firstQ entries k.name = none ∧
         ∃ s, firstQ entries "*" = some s ∧ e = withPref k s)) := by
  obtain ⟨hseen, hstar, hacc⟩ := accFold_inv entries
  have hperm := List.perm_insertionSort encLE
    ((accFold entries).accept ++ starExtension (accFold entries))
  constructor
  · intro he
    have hm : e ∈ (accFold entries).accept ++ starExtension (accFold entries) :=
      hperm.mem_iff.mp (by simpa [acceptable, sortEncodings] using he)
    rcases List.mem_append.mp hm with hm | hm
    · rcases (hacc e).mp hm with ⟨k, hk, q, hq, hq0, heq⟩
      exact ⟨k, hk, Or.inl ⟨q, hq, hq0, heq⟩⟩
    · rw [starExtension] at hm
      cases hsq : (accFold entries).starQ with
      | none => rw [hsq] at hm; simp at hm
      | some s =>
        rw [hsq] at hm
        simp only [List.mem_map, List.mem_filter] at hm
        rcases hm with ⟨k, ⟨hk, hns⟩, heq⟩
        have hmem : k.name ∉ (accFold entries).seen := by simpa using hns
        have hnone : firstQ entries k.name = none := by
          rcases hx : firstQ entries k.name with _ | q
          · rfl
          · exact absurd ((hseen k.name).mpr (by rw [hx]; rfl)) hmem
        exact ⟨k, hk, Or.inr ⟨hnone, s, by rw [← hstar, hsq], heq.symm⟩⟩
  · rintro ⟨k, hk, hcase⟩
    have target : e ∈ (accFold entries).accept ++ starExtension (accFold entries) →
        e ∈ acceptable entries := by
      intro hm
      simpa [acceptable, sortEncodings] using hperm.mem_iff.mpr hm
    rcases hcase with ⟨q, hq, hq0, heq⟩ | ⟨hnone, s, hs, heq⟩
    · exact target (List.mem_append.mpr (Or.inl ((hacc e).mpr ⟨k, hk, q, hq, hq0, heq⟩)))
    · refine target (List.mem_append.mpr (Or.inr ?_))
      have hsq : (accFold entries).starQ = some s := by rw [hstar, hs]
      rw [starExtension, hsq]
      simp only [List.mem_map, List.mem_filter]
      refine ⟨k, ⟨hk, ?_⟩, heq.symm⟩
      have hnm : k.name ∉ (accFold entries).seen := by
        intro hmem
        have hx := (hseen k.name).mp hmem
        rw [hnone] at hx
        simp at hx
      simpa using hnm

/-! ### Claim theorems -/

/-- C3: a token the header explicitly weights 0 (first occurrence) is never
selected: it appears in no candidate list built by `acceptable` (even when
a wildcard entry would otherwise cover it), and weighted negotiation never
picks it from any availability list. -/
theorem c3_zero_weight_never_selected (entries : List (String × Nat)) (name : String)
    (avail : List String) (hname : name ≠ "")
    (h : firstQ entries name = some 0) :
    (∀ e ∈ acceptable entries, e.name ≠ name) ∧
    negotiateEntries entries avail ≠ name := by
  constructor
  · intro e he hne
    rcases (acceptable_mem_iff entries e).mp he with ⟨k, hk, hcase⟩
    rcases hcase with ⟨q, hq, hq0, heq⟩ | ⟨hnone, s, hs, heq⟩
    · rw [heq] at hne
      rw [show (withPref k q).name = k.name from rfl] at hne
      rw [hne, h] at hq
      injection hq with h2
      exact hq0 h2.symm
    · rw [heq] at hne
      rw [show (withPref k s).name = k.name from rfl] at hne
      rw [hne, h] at hnone
      cases hnone
  · intro hsel
    rcases negotiateEntries_cases entries avail with h0 | ⟨_, hpos⟩
    · rw [hsel] at h0
      exact hname h0
    · rw [hsel] at hpos
      have heff : effectiveQ entries name = some 0 := by rw [effectiveQ, h]
      rw [heff] at hpos
      simp at hpos

/-- Witness for C3 at the concrete header `gzip;q=0,*` of the spec's
example. -/
theorem c3_witness :
    ("gzip" : String) ≠ "" ∧
    firstQ (parseAcceptEncoding "gzip;q=0,*") "gzip" = some 0 ∧
    ((∀ e ∈ acceptable (parseAcceptEncoding "gzip;q=0,*"), e.name ≠ "gzip") ∧
      negotiateEntries (parseAcceptEncoding "gzip;q=0,*") ["br", "gzip", "identity"] ≠ "gzip") :=
  ⟨by decide, by decide,
    c3_zero_weight_never_selected (parseAcceptEncoding "gzip;q=0,*") "gzip"
      ["br", "gzip", "identity"] (by decide) (by decide)⟩

/-- C4 (amended): the candidate list contains exactly the supported
encodings with an explicit non-zero weight or covered by a wildcard entry
— at the wildcard's weight even when that weight is 0 — sorted descending
by client weight with ties broken by descending server preference; and
with both siblings on disk and `Accept-Encoding: *`, the sorted-design
server selects `br`. -/
theorem c4_candidate_list (entries : List (String × Nat)) :
    (∀ e, e ∈ acceptable entries ↔ ∃ k ∈ supportedEncodings,
      ((∃ q, firstQ entries k.name = some q ∧ q ≠ 0 ∧ e = withPref k q) ∨
       (firstQ entries k.name = none ∧
         ∃ s, firstQ entries "*" = some s ∧ e = withPref k s))) ∧
    List.Sorted encLE (acceptable entries) ∧
    (serveHTTP_A
        [("/f.txt", Entry.file "AA" 0), ("/f.txt.gz", Entry.file "G" 0),
          ("/f.txt.br", Entry.file "B" 0)] ⟨"/f.txt", "*", false⟩).1.contentEncoding =
      some "br" := by
  refine ⟨fun e => acceptable_mem_iff entries e, ?_, by decide⟩
  simp only [acceptable, sortEncodings]
  exact List.sorted_insertionSort encLE _

/-- C5 (amended): both `Exists` implementations of the storage abstraction
are total boolean functions (they never raise) and return `false` for any
name containing the host path separator on hosts where that separator is
not `/`.  Neither can be driven outside the root: `Dir.Exists` cleans the
name rooted, so it contains no `..` element; `fs.Exists` cleans the name
as given, and the wrapped `fs.Stat` rejects any name that is not
`io/fs`-valid — in particular any name still containing a `..` element —
so it returns `false` for it.  On `/`-separated hosts each returns exactly
whether its resolved name stats successfully — which is `true` for
directories and any other stat-able entry, not only regular readable
files. -/
theorem c5_exists_safety (sep : Char) (host : HostFS) (d name : String) :
    (sep ≠ '/' → strContainsChar name sep = true → dirExists sep host d name = false) ∧
    ".." ∉ pathCleanElems true ("/" ++ name) ∧
    (dirExists '/' host d name =
      (hostStat host ((if d = "" then "." else d) ++ pathClean ("/" ++ name))).isSome) ∧
    (sep ≠ '/' → strContainsChar name sep = true → fsExists sep host name = false) ∧
    (fsExists '/' host name =
      (validPath (trimLeadingSlash (pathClean name)) &&
        (hostStat host (trimLeadingSlash (pathClean name))).isSome)) ∧
    (∀ c : String, validPath c = true → ".." ∉ segments c) := by
  refine ⟨fun hsep hcont => ?_, ?_, ?_, fun hsep hcont => ?_, ?_, fun c hv hmem => ?_⟩
  · rw [dirExists, if_pos ⟨hsep, hcont⟩]
  · rw [pathCleanElems]
    intro hmem
    exact cleanLoop_no_dotdot (segments ("/" ++ name)) [] (by simp)
      (List.mem_reverse.mp hmem)
  · rw [dirExists]
    have : ¬(('/' : Char) ≠ '/' ∧ strContainsChar name '/' = true) := fun h => h.1 rfl
    rw [if_neg this, fromSlash_slash]
  · rw [fsExists, if_pos ⟨hsep, hcont⟩]
  · rw [fsExists]
    have : ¬(('/' : Char) ≠ '/' ∧ strContainsChar name '/' = true) := fun h => h.1 rfl
    rw [if_neg this, fromSlash_slash]
    cases hv : validPath (trimLeadingSlash (pathClean name)) <;> simp [hv]
  · rw [validPath] at hv
    rcases Bool.or_eq_true_iff.mp hv with hdot | hall
    · have hc : c = "." := of_decide_eq_true hdot
      subst hc
      have hseg : segments "." = ["."] := by decide
      rw [hseg] at hmem
      simp at hmem
    · have := of_decide_eq_true (List.all_eq_true.mp hall ".." hmem)
      exact this.2.2 rfl

lemma extension_br : extensionForEncoding "br" = ".br" := by decide

lemma extension_gzip : extensionForEncoding "gzip" = ".gz" := by decide

lemma extension_identity : extensionForEncoding "identity" = "" := by decide

/-- With no pre-encoded sibling on disk, the availability list is at most
`["identity"]`. -/
lemma availableEncodings_no_siblings (fs : FileSys) (p : String)
    (hgz : statFS fs (p ++ ".gz") = none) (hbr : statFS fs (p ++ ".br") = none) :
    availableEncodings fs p = if existsFS fs p then ["identity"] else [] := by
  have hbrF : existsFS fs (p ++ extensionForEncoding "br") = false := by
    rw [extension_br, existsFS, hbr]; rfl
  have hgzF : existsFS fs (p ++ extensionForEncoding "gzip") = false := by
    rw [extension_gzip, existsFS, hgz]; rfl
  have hidE : p ++ extensionForEncoding "identity" = p := by
    rw [extension_identity]; exact str_append_empty p
  rw [availableEncodings, preferredEncodings]
  simp only [List.filter_cons, List.filter_nil, hbrF, hgzF, hidE]
  cases existsFS fs p <;> simp

/-- With no pre-encoded sibling on disk, the probing `findBestFile` always
ends up serving (or failing to serve) the base file: the status and body
are those of the base-file fallback whatever the `Accept-Encoding`
header. -/
lemma findBestFileB_status_body_no_siblings (fs : FileSys) (req : Request) (p : String)
    (t : Trace) (hgz : statFS fs (p ++ ".gz") = none) (hbr : statFS fs (p ++ ".br") = none) :
    (respond (findBestFileB fs req p t).1 (findBestFileB fs req p t).2).1.status =
        baseStatus fs p ∧
    (respond (findBestFileB fs req p t).1 (findBestFileB fs req p t).2).1.body =
        baseBody fs p := by
  simp only [findBestFileB]
  by_cases hae : req.acceptEncoding = ""
  · simp only [if_pos hae]
    rw [respond_baseFallback]
    exact ⟨rfl, rfl⟩
  · simp only [if_neg hae, probe_fst]
    have havail : preferredEncodings.filter
        (fun e => existsFS fs (p ++ extensionForEncoding e)) =
        if existsFS fs p then ["identity"] else [] :=
      availableEncodings_no_siblings fs p hgz hbr
    rw [havail]
    by_cases hefs : existsFS fs p
    · rw [if_pos hefs]
      have hne : (["identity"] : List String) ≠ [] := by simp
      rw [if_neg hne]
      rcases negotiateEntries_cases (parseAcceptEncoding req.acceptEncoding) ["identity"]
        with h0 | ⟨hmem, _⟩
      · simp only [negotiate, h0, if_true]
        rw [respond_baseFallback]
        exact ⟨rfl, rfl⟩
      · have hid : negotiateEntries (parseAcceptEncoding req.acceptEncoding) ["identity"] =
            "identity" := by simpa using hmem
        simp only [negotiate, hid]
        have hne2 : ("identity" : String) ≠ "" := by decide
        rw [if_neg hne2]
        exact respond_serveNegotiated_identity fs req p _
    · rw [if_neg hefs, if_pos rfl]
      rw [respond_baseFallback]
      exact ⟨rfl, rfl⟩

/-- Every result of the probing `findBestFile` either carries no
negotiation header at all (the fallback paths) or is a successfully opened
negotiated variant with all of `Content-Encoding`, `Vary` and (for
non-range requests) `Content-Length` set. -/
lemma findBestFileB_shape (fs : FileSys) (req : Request) (fpath : String) (t : Trace) :
    ((findBestFileB fs req fpath t).1.contentEncoding = none ∧
      (findBestFileB fs req fpath t).1.vary = none ∧
      (findBestFileB fs req fpath t).1.contentLength = none) ∨
    (∃ ne h b mt, ne ∈ preferredEncodings ∧
      (findBestFileB fs req fpath t).1 =
        ⟨.ok h b mt, some ne, some "Accept-Encoding",
          if req.hasRange then none else some b.length⟩) := by
  simp only [findBestFileB]
  by_cases hae : req.acceptEncoding = ""
  · rw [if_pos hae, baseFallback_fst]
    exact Or.inl ⟨rfl, rfl, rfl⟩
  · rw [if_neg hae]
    by_cases hav : (probe fs fpath preferredEncodings t).1 = []
    · rw [if_pos hav, baseFallback_fst]
      exact Or.inl ⟨rfl, rfl, rfl⟩
    · rw [if_neg hav]
      by_cases h0 : negotiate req.acceptEncoding (probe fs fpath preferredEncodings t).1 = ""
      · rw [if_pos h0, baseFallback_fst]
        exact Or.inl ⟨rfl, rfl, rfl⟩
      · rw [if_neg h0]
        have hmem : negotiate req.acceptEncoding (probe fs fpath preferredEncodings t).1 ∈
            preferredEncodings := by
          rcases negotiateEntries_cases (parseAcceptEncoding req.acceptEncoding)
            (probe fs fpath preferredEncodings t).1 with h1 | ⟨h1, _⟩
          · exact absurd h1 h0
          · have hsub : (probe fs fpath preferredEncodings t).1 ⊆ preferredEncodings := by
              rw [probe_fst]
              intro x hx
              exact List.mem_of_mem_filter hx
            exact hsub h1
        unfold serveNegotiated
        rcases hst : statFS fs (fpath ++ extensionForEncoding
            (negotiate req.acceptEncoding (probe fs fpath preferredEncodings t).1)) with _ | e
        · simp only [openAndStat_fst, hst, baseFallback_fst]
          exact Or.inl (by simp)
        · cases e with
          | dir =>
            simp only [openAndStat_fst, hst, baseFallback_fst]
            exact Or.inl (by simp)
          | file b mt =>
            simp only [openAndStat_fst, hst]
            exact Or.inr ⟨_, _, b, mt, hmem, rfl⟩

/-- C1 (amended): `Vary: Accept-Encoding` is present exactly when
`Content-Encoding` is; any `Content-Encoding` the core sets names one of
the probed encodings — including, possibly, `identity` — and comes with a
200 response; `Content-Length` is never set by the core for range
requests, and for non-range requests it is set exactly when
`Content-Encoding` is. -/
theorem c1_headers_follow_negotiation (fs : FileSys) (req : Request) :
    ((serveHTTP_B fs req).1.vary = none ↔ (serveHTTP_B fs req).1.contentEncoding = none) ∧
    (∀ e, (serveHTTP_B fs req).1.contentEncoding = some e →
      e ∈ preferredEncodings ∧ (serveHTTP_B fs req).1.status = 200) ∧
    (req.hasRange = true → (serveHTTP_B fs req).1.contentLength = none) ∧
    (req.hasRange = false →
      ((serveHTTP_B fs req).1.contentLength = none ↔
        (serveHTTP_B fs req).1.contentEncoding = none)) := by
  simp only [serveHTTP_B]
  by_cases hdir : strEndsWith (cleanedPath req) "/" = true
  · rw [if_pos hdir]
    simp [notFoundResponse]
  · rw [if_neg hdir]
    rcases findBestFileB_shape fs req (cleanedPath req) Trace.empty with
      ⟨hce, hv, hcl⟩ | ⟨ne, h, b, mt, hmem, heq⟩
    · rcases ho : (findBestFileB fs req (cleanedPath req) Trace.empty).1.outcome with
        _ | h | ⟨h, b, mt⟩ <;>
        simp [respond, ho, hce, hv, hcl, notFoundResponse]
    · have hresp : (respond (findBestFileB fs req (cleanedPath req) Trace.empty).1
          (findBestFileB fs req (cleanedPath req) Trace.empty).2).1 =
          ⟨200, some ne, some "Accept-Encoding",
            if req.hasRange then none else some b.length, some b⟩ := by
        rw [heq]
        rfl
      rw [hresp]
      refine ⟨by simp, fun e he => ?_, fun hr => by simp [hr], fun hr => by simp [hr]⟩
      simp only at he
      injection he with he2
      subst he2
      exact ⟨hmem, rfl⟩

/-- C2 (amended): when the base file has no pre-encoded sibling on disk,
the response status and body are identical whether or not an
`Accept-Encoding` header is sent; the headers can differ (negotiation may
still select the identity encoding and set
`Content-Encoding`/`Vary`/`Content-Length`). -/
theorem c2_fallback_status_body_agnostic (fs : FileSys) (req : Request)
    (hgz : statFS fs (cleanedPath req ++ ".gz") = none)
    (hbr : statFS fs (cleanedPath req ++ ".br") = none) :
    (serveHTTP_B fs req).1.status = (serveHTTP_B fs ⟨req.path, "", req.hasRange⟩).1.status ∧
    (serveHTTP_B fs req).1.body = (serveHTTP_B fs ⟨req.path, "", req.hasRange⟩).1.body := by
  have hpath : cleanedPath (⟨req.path, "", req.hasRange⟩ : Request) = cleanedPath req := rfl
  by_cases hdir : strEndsWith (cleanedPath req) "/" = true
  · simp [serveHTTP_B, hpath, hdir]
  · have hLHS := findBestFileB_status_body_no_siblings fs req (cleanedPath req)
      Trace.empty hgz hbr
    have hRHS := findBestFileB_status_body_no_siblings fs ⟨req.path, "", req.hasRange⟩
      (cleanedPath req) Trace.empty hgz hbr
    simp only [serveHTTP_B, hpath]
    rw [if_neg hdir, if_neg hdir]
    exact ⟨hLHS.1.trans hRHS.1.symm, hLHS.2.trans hRHS.2.symm⟩

/-- Witness for C2 (amended) at a concrete sibling-less filesystem and the
header `gzip,*`. -/
theorem c2_witness :
    statFS [("/file.txt", Entry.file "hello" 0)]
        (cleanedPath ⟨"/file.txt", "gzip,*", false⟩ ++ ".gz") = none ∧
    statFS [("/file.txt", Entry.file "hello" 0)]
        (cleanedPath ⟨"/file.txt", "gzip,*", false⟩ ++ ".br") = none ∧
    ((serveHTTP_B [("/file.txt", Entry.file "hello" 0)] ⟨"/file.txt", "gzip,*", false⟩).1.status =
        (serveHTTP_B [("/file.txt", Entry.file "hello" 0)] ⟨"/file.txt", "", false⟩).1.status ∧
      (serveHTTP_B [("/file.txt", Entry.file "hello" 0)] ⟨"/file.txt", "gzip,*", false⟩).1.body =
        (serveHTTP_B [("/file.txt", Entry.file "hello" 0)] ⟨"/file.txt", "", false⟩).1.body) :=
  ⟨by decide, by decide,
    c2_fallback_status_body_agnostic [("/file.txt", Entry.file "hello" 0)]
      ⟨"/file.txt", "gzip,*", false⟩ (by decide) (by decide)⟩

/-- C6: whenever negotiation selects nothing (header absent, nothing
available, or weights exclude everything) or the negotiated sibling cannot
be opened as a regular file, the probing `findBestFile` falls back to the
base path with no suffix and none of the negotiation headers; and when
that final unencoded open fails too, the response is 404 (`baseResponse`
is 404 with an empty body exactly when the base path is not a regular
file). -/
theorem c6_fallback_to_base (fs : FileSys) (req : Request)
    (hdir : strEndsWith (cleanedPath req) "/" = false)
    (hfail : negotiatedEncoding fs req (cleanedPath req) = "" ∨
      ∀ b mt, statFS fs (cleanedPath req ++
          extensionForEncoding (negotiatedEncoding fs req (cleanedPath req))) ≠
        some (Entry.file b mt)) :
    (serveHTTP_B fs req).1 = baseResponse fs (cleanedPath req) := by
  have hdir' : ¬ strEndsWith (cleanedPath req) "/" = true := by simp [hdir]
  simp only [serveHTTP_B]
  rw [if_neg hdir']
  simp only [findBestFileB]
  by_cases hae : req.acceptEncoding = ""
  · simp only [if_pos hae]
    exact respond_baseFallback fs (cleanedPath req) Trace.empty
  · simp only [if_neg hae, probe_fst]
    have hfold : List.filter
        (fun e => existsFS fs (cleanedPath req ++ extensionForEncoding e)) preferredEncodings =
        availableEncodings fs (cleanedPath req) := rfl
    rw [hfold]
    by_cases hav : availableEncodings fs (cleanedPath req) = []
    · rw [if_pos hav]
      exact respond_baseFallback fs (cleanedPath req) _
    · rw [if_neg hav]
      have hneg : negotiatedEncoding fs req (cleanedPath req) =
          negotiate req.acceptEncoding (availableEncodings fs (cleanedPath req)) := by
        rw [negotiatedEncoding, if_neg hae, if_neg hav]
      by_cases h0 : negotiate req.acceptEncoding (availableEncodings fs (cleanedPath req)) = ""
      · rw [if_pos h0]
        exact respond_baseFallback fs (cleanedPath req) _
      · rw [if_neg h0]
        rcases hfail with hf | hf
        · exact absurd (hneg ▸ hf) h0
        · rw [hneg] at hf
          exact respond_serveNegotiated_notfile fs req _ _ _ hf

/-- Witness for C6 at the concrete empty filesystem, where negotiation has
nothing available and the final unencoded open fails, yielding 404. -/
theorem c6_witness :
    strEndsWith (cleanedPath ⟨"/x", "gzip", false⟩) "/" = false ∧
    negotiatedEncoding [] ⟨"/x", "gzip", false⟩ (cleanedPath ⟨"/x", "gzip", false⟩) = "" ∧
    (serveHTTP_B [] ⟨"/x", "gzip", false⟩).1 =
      baseResponse [] (cleanedPath ⟨"/x", "gzip", false⟩) ∧
    (serveHTTP_B [] ⟨"/x", "gzip", false⟩).1.status = 404 :=
  ⟨by decide, by decide,
    c6_fallback_to_base [] ⟨"/x", "gzip", false⟩ (by decide) (Or.inl (by decide)),
    by decide⟩

/-- C7: a request whose cleaned path ends in `/` is answered 404 by both
`ServeHTTP` variants with an empty trace — in particular the storage
abstraction is never consulted. -/
theorem c7_directory_shaped_404 (fs : FileSys) (req : Request)
    (h : strEndsWith (cleanedPath req) "/" = true) :
    serveHTTP_A fs req = (notFoundResponse, Trace.empty) ∧
    serveHTTP_B fs req = (notFoundResponse, Trace.empty) := by
  constructor <;> simp [serveHTTP_A, serveHTTP_B, h]

/-- Witness for C7 at the concrete request `GET /` against a filesystem that
does hold an index file. -/
theorem c7_witness :
    strEndsWith (cleanedPath ⟨"/", "gzip", false⟩) "/" = true ∧
    serveHTTP_B [("/index.html", Entry.file "x" 0)] ⟨"/", "gzip", false⟩ =
      (notFoundResponse, Trace.empty) :=
  ⟨by decide, (c7_directory_shaped_404 [("/index.html", Entry.file "x" 0)]
      ⟨"/", "gzip", false⟩ (by decide)).2⟩

/-- C8: at the concrete request `GET /d` where `/d` is a directory, the
handler opens a handle (`openAndStat` succeeds in opening before the
directory check fails), answers 404, and never closes it — the handle
leaks, contradicting the requirement that every handle opened during a
request is released on every exit path. -/
theorem c8_handle_leak_at_directory :
    (serveHTTP_B [("/d", Entry.dir)] ⟨"/d", "", false⟩).2.opened = [0] ∧
    (serveHTTP_B [("/d", Entry.dir)] ⟨"/d", "", false⟩).2.closed = [] ∧
    (serveHTTP_B [("/d", Entry.dir)] ⟨"/d", "", false⟩).1.status = 404 :=
  ⟨by decide, by decide, by decide⟩

/-- Counterexample to C9: with a `.gz` sibling on disk and
`Accept-Encoding: gzip`, the two designs produce different responses (the
probing design additionally sets `Vary` and `Content-Length`). -/
theorem c9_counterexample_designs_differ :
    (serveHTTP_A [("/file.txt", Entry.file "base" 0), ("/file.txt.gz", Entry.file "gz" 1)]
        ⟨"/file.txt", "gzip", false⟩).1 =
      ⟨200, some "gzip", none, none, some "gz"⟩ ∧
    (serveHTTP_B [("/file.txt", Entry.file "base" 0), ("/file.txt.gz", Entry.file "gz" 1)]
        ⟨"/file.txt", "gzip", false⟩).1 =
      ⟨200, some "gzip", some "Accept-Encoding", some 2, some "gz"⟩ :=
  ⟨by decide, by decide⟩

/-- C9 (amended): the two designs agree — response and full trace — on
every request that carries no `Accept-Encoding` header; with the header
present they can differ in the `Vary` and `Content-Length` headers. -/
theorem c9_designs_agree_without_header (fs : FileSys) (req : Request)
    (h : req.acceptEncoding = "") :
    serveHTTP_A fs req = serveHTTP_B fs req := by
  have hacc : acceptable (parseAcceptEncoding "") = [] := by decide
  simp [serveHTTP_A, serveHTTP_B, findBestFileA, findBestFileB, h, hacc, tryEncodings]

/-- Witness for C9 (amended) at a concrete header-less request. -/
theorem c9_witness :
    (⟨"/a", "", false⟩ : Request).acceptEncoding = "" ∧
    serveHTTP_A [("/a", Entry.file "x" 3)] ⟨"/a", "", false⟩ =
      serveHTTP_B [("/a", Entry.file "x" 3)] ⟨"/a", "", false⟩ :=
  ⟨rfl, c9_designs_agree_without_header [("/a", Entry.file "x" 3)] ⟨"/a", "", false⟩ rfl⟩

/-- C10: whenever the request carries a non-empty `Accept-Encoding` header,
the probing `findBestFile` appends to standard output exactly one
diagnostic line per preferred encoding, each stating whether the sibling
file is available or not found. -/
theorem c10_probe_prints_per_encoding (fs : FileSys) (req : Request) (fpath : String) (t : Trace)
    (h : req.acceptEncoding ≠ "") :
    (findBestFileB fs req fpath t).2.stdout =
      t.stdout ++ preferredEncodings.map (probeLine fs fpath) := by
  simp only [findBestFileB, if_neg h]
  by_cases h1 : (probe fs fpath preferredEncodings t).1 = []
  · simp [h1, baseFallback_stdout, probe_stdout]
  · by_cases h2 : negotiate req.acceptEncoding (probe fs fpath preferredEncodings t).1 = ""
    · simp [h1, h2, baseFallback_stdout, probe_stdout]
    · simp [h1, h2, serveNegotiated_stdout, probe_stdout]

/-- Witness for C10 at a concrete request with `Accept-Encoding: gzip`. -/
theorem c10_witness :
    (⟨"/f.txt", "gzip", false⟩ : Request).acceptEncoding ≠ "" ∧
    (findBestFileB [("/f.txt", Entry.file "AA" 0), ("/f.txt.gz", Entry.file "G" 0)]
        ⟨"/f.txt", "gzip", false⟩ "/f.txt" Trace.empty).2.stdout =
      Trace.empty.stdout ++ preferredEncodings.map
        (probeLine [("/f.txt", Entry.file "AA" 0), ("/f.txt.gz", Entry.file "G" 0)] "/f.txt") :=
  ⟨by decide, c10_probe_prints_per_encoding
    [("/f.txt", Entry.file "AA" 0), ("/f.txt.gz", Entry.file "G" 0)]
    ⟨"/f.txt", "gzip", false⟩ "/f.txt" Trace.empty (by decide)⟩

/-- Counterexample to C1: negotiation can select the identity encoding (the
availability probe offers it whenever the base file exists), and the code
then sets `Content-Encoding: identity`, `Vary: Accept-Encoding` and
`Content-Length` — all three headers despite an identity variant being
served. -/
theorem c1_counterexample_identity_sets_headers :
    negotiate "identity"
        (availableEncodings [("/file.txt", Entry.file "hello" 0)] "/file.txt") = "identity" ∧
    (serveHTTP_B [("/file.txt", Entry.file "hello" 0)] ⟨"/file.txt", "identity", false⟩).1 =
      ⟨200, some "identity", some "Accept-Encoding", some 5, some "hello"⟩ :=
  ⟨by decide, by decide⟩

/-- Counterexample to C2: with no pre-encoded sibling on disk, the response
to `Accept-Encoding: identity` carries headers that the header-less
response does not (negotiation selects identity and the handler sets
`Content-Encoding`/`Vary`/`Content-Length`). -/
theorem c2_counterexample_headers_differ :
    statFS [("/file.txt", Entry.file "hello" 0)] "/file.txt.gz" = none ∧
    statFS [("/file.txt", Entry.file "hello" 0)] "/file.txt.br" = none ∧
    (serveHTTP_B [("/file.txt", Entry.file "hello" 0)] ⟨"/file.txt", "identity", false⟩).1 ≠
      (serveHTTP_B [("/file.txt", Entry.file "hello" 0)] ⟨"/file.txt", "", false⟩).1 :=
  ⟨by decide, by decide, by decide⟩

/-- Counterexample to C4: for `Accept-Encoding: *;q=0` the candidate list
built by `acceptable` holds both supported encodings at effective weight 0
— not only encodings with effective weight strictly greater than 0 (which
would make the list empty). -/
theorem c4_counterexample_wildcard_zero :
    (acceptable (parseAcceptEncoding "*;q=0")).map (fun e => (e.name, e.clientPreference)) =
      [("br", 0), ("gzip", 0)] := by decide

/-- Counterexample to C5: a name that resolves to a directory under the
root still stats successfully, so both `Dir.Exists` and `fs.Exists`
return `true` — not `false` as required for paths that do not resolve to
a regular file. -/
theorem c5_counterexample_directory_reported :
    hostStat [("root/sub", Entry.dir)] "root/sub" = some Entry.dir ∧
    dirExists '/' [("root/sub", Entry.dir)] "root" "sub" = true ∧
    fsExists '/' [("sub", Entry.dir)] "sub" = true :=
  ⟨by decide, by decide, by decide⟩

end Gzipped
